import Mathlib

/-!
Verification of the SQC measurement-sequence orchestration engine.

This file gives a shallow embedding, in Lean, of the parts of the SQC
code base (hephy-dd/sqc) that the checked properties speak about:

* the recontact x-offset cycling and the remeasure/recontact retry ladder
  of `SequenceStrategy` (src/sqc/strategy.py),
* the strip-pattern computation `SequenceStrategy.calculate_strip_pattern`,
* the switch-matrix diffing `Station.hv_switch_apply` / `lv_switch_apply`
  and the capacitor-discharge procedure `CapacitorDischarge` (src/sqc/station.py),
* the table movement-wait loop `Table.wait_movement_finished` and the
  calibration check `Table.is_calibrated` / `TableController.requestCalibrate`
  (src/sqc/controller/table.py),
* the data-insertion helper `auto_insert_item` (src/src/sqc/context.py),
* the strip-range expansion `parse_strips` / `extract_slice`
  (src/sqc/core/utils.py).

Python exceptions are modelled with `Except`, Python sets with `Finset`,
Python dicts (insertion ordered) with association lists, and wall-clock
time with the accumulated sleep durations (reads and callbacks are taken
as instantaneous).  Side effects that the properties mention (switch
open/close calls, progress signals, writer invocations, sleeps, callback
invocations) are recorded in explicit traces.
-/

deriving instance DecidableEq for Except

/-- Python exception kinds raised by the code under study.
`unboundLocalError` models CPython's `UnboundLocalError`, raised when a
function reads a local variable that was never assigned on the taken path. -/
inductive PyExc where
  | complianceError
  | analysisError
  | runtimeError
  | unboundLocalError
  deriving DecidableEq, Repr

/-- Item states of sequence items (src/sqc/core/sequence.py state constants,
as used by `SequenceStrategy`). -/
inductive ItemState where
  | pending
  | active
  | success
  | failed
  | compliance
  | aborted
  | halted
  | ignored
  deriving DecidableEq, Repr

/-! ## C3 — recontact x-offset cycling (src/sqc/strategy.py 414-432)

In `SequenceStrategy.handle_strip_items` the code is

    x_offsets = cycle([0, +5, -5, +2, -2])
    for attempt in range(self.recontact_attempts + 1):
        ...
        x, y, z = position
        x_offset = next(x_offsets)
        x = x + x_offset
        position = x, y, z
        ...

`position` starts as the nominal contact position of the strip and is
overwritten on every attempt, so each cycle element is added to the
previous attempt's position, not to the nominal one. -/

/-- The hard-coded recontact x-offset cycle `[0, +5, -5, +2, -2]` (micrometer). -/
def x_offsets : List ℤ := [0, 5, -5, 2, -2]

/-- The value `next(x_offsets)` returns on the k-th call (0-based), the
cycle repeating with period 5. -/
def offsetAt (k : ℕ) : ℤ := x_offsets.getD (k % x_offsets.length) 0

/-- The x-coordinate the table is sent to on contact attempt `k` (0-based)
for a strip whose nominal contact x-position is `nominal`: the source adds
`next(x_offsets)` to the previous attempt's (already offset) x-position. -/
def attemptX (nominal : ℤ) : ℕ → ℤ
  | 0 => nominal + offsetAt 0
  | k + 1 => attemptX nominal k + offsetAt (k + 1)

/-- The cumulative offset relative to the nominal x-position that the code
actually applies on attempt `k`: the prefix sums of the cycle, a period-5
sequence `0, +5, 0, +2, 0`. -/
def cumulativeOffset (r : ℕ) : ℤ := ([0, 5, 0, 2, 0] : List ℤ).getD r 0

/-! ## C7 — table calibration check (src/sqc/controller/table.py 77-84, 189-217) -/

/-- The per-axis `caldone` register values reported by the Corvus table
driver for the x, y and z axis. -/
structure AxesCaldone where
  x : ℕ
  y : ℕ
  z : ℕ
  deriving DecidableEq, Repr

/-- Embedding of `Table.is_calibrated` (src/sqc/controller/table.py 77-84).
The source tests `driver.x.caldone`, `driver.y.caldone` and then
`driver.x.caldone` again; the z axis register is never read. -/
def is_calibrated (a : AxesCaldone) : Bool :=
  if a.x ≠ 0x3 then false
  else if a.y ≠ 0x3 then false
  else if a.x ≠ 0x3 then false
  else true

/-- Outcome of one execution of the queued `requestCalibrate` request body. -/
structure CalibrateRun where
  /-- The `progressChanged.emit(step, total)` signals, in order. -/
  progress : List (ℕ × ℕ)
  /-- `Except.error ()` models the `RuntimeError("failed to calibrate")`. -/
  result : Except Unit Unit
  deriving DecidableEq, Repr

/-- Embedding of the request body of `TableController.requestCalibrate`
(src/sqc/controller/table.py 189-217) for a run on which `abortRequested`
stays `False`: all six steps execute, `(k, 6)` progress is emitted before
each step and `(6, 6)` at the end, and a `RuntimeError` is raised exactly
when `Table.is_calibrated` returns `False`. -/
def requestCalibrate (a : AxesCaldone) : CalibrateRun :=
  { progress := [(0, 6), (1, 6), (2, 6), (3, 6), (4, 6), (5, 6), (6, 6)],
    result := if is_calibrated a then Except.ok () else Except.error () }

/-! ## C1 — measurement retry ladder (src/sqc/strategy.py 473-512)

`run_measurement` (src/sqc/strategy.py 514-535) runs
`measurement.initialize(); measurement.acquire()`, swallows
`AbortRequested`, re-raises `ComplianceError` and `AnalysisError` and
re-raises any other exception after reporting it.  We model one invocation
by its outcome. -/

/-- Outcome of one `measurement.initialize(); measurement.acquire()` run. -/
inductive MeasOutcome where
  /-- Completed normally. -/
  | ok
  /-- Raised `AbortRequested` (swallowed by `run_measurement`). -/
  | aborted
  /-- Raised `ComplianceError`. -/
  | compliance
  /-- Raised `AnalysisError`. -/
  | analysis
  /-- Raised any other exception. -/
  | fatal
  deriving DecidableEq, Repr

/-- Embedding of `SequenceStrategy.run_measurement`: maps the measurement
outcome to what the caller observes. -/
def runMeasurement (o : MeasOutcome) : Except PyExc Unit :=
  match o with
  | .ok => Except.ok ()
  | .aborted => Except.ok ()
  | .compliance => Except.error PyExc.complianceError
  | .analysis => Except.error PyExc.analysisError
  | .fatal => Except.error PyExc.runtimeError

/-- What one call of `SequenceStrategy.auto_repeat_measurement` does. -/
structure RepeatResult where
  /-- `Except.ok b` models `return b`; `Except.error e` a raised exception. -/
  result : Except PyExc Bool
  /-- How often `run_measurement` was invoked. -/
  runs : ℕ
  /-- How often the remeasure counter was incremented. -/
  remeasures : ℕ
  deriving DecidableEq, Repr

/-- The loop `for attempt in range(attempts + 1)` of
`auto_repeat_measurement` (src/sqc/strategy.py 498-512): `attempt` is the
current 0-based attempt index, `remaining` the number of range elements
left, and `outcomes n` the outcome of the n-th `run_measurement` call. -/
def autoRepeatLoop (outcomes : ℕ → MeasOutcome) : ℕ → ℕ → RepeatResult
  | _, 0 => ⟨Except.ok false, 0, 0⟩
  | attempt, remaining + 1 =>
    let inc : ℕ := if attempt = 0 then 0 else 1
    match runMeasurement (outcomes attempt) with
    | Except.ok _ => ⟨Except.ok true, 1, inc⟩
    | Except.error PyExc.analysisError =>
        let r := autoRepeatLoop outcomes (attempt + 1) remaining
        ⟨r.result, r.runs + 1, r.remeasures + inc⟩
    | Except.error e => ⟨Except.error e, 1, inc⟩

/-- Embedding of `SequenceStrategy.auto_repeat_measurement`
(src/sqc/strategy.py 498-512): up to `attempts` in-place repetitions after
the first try, repeating only on `AnalysisError`; `Except.ok false` means
all re-measurements failed and a recontact is requested. -/
def auto_repeat_measurement (attempts : ℕ) (outcomes : ℕ → MeasOutcome) : RepeatResult :=
  autoRepeatLoop outcomes 0 (attempts + 1)

/-- Embedding of `SequenceStrategy.handle_strip_item`
(src/sqc/strategy.py 473-496).  The final item state and what the call
does: `Except.ok b` models `return result` with a bound value, and
`Except.error e` a raised exception.  In the source the except-clause for
`ComplianceError` sets the `Compliance` state but does not assign or
return `result`, so the trailing `return result` raises
`UnboundLocalError`, which propagates to the caller. -/
def handle_strip_item (attempts : ℕ) (abortRequested : Bool)
    (outcomes : ℕ → MeasOutcome) : ItemState × Except PyExc Bool :=
  let r := auto_repeat_measurement attempts outcomes
  match r.result with
  | Except.ok b =>
      (if abortRequested then ItemState.aborted else ItemState.success, Except.ok b)
  | Except.error PyExc.complianceError =>
      (ItemState.compliance, Except.error PyExc.unboundLocalError)
  | Except.error e => (ItemState.failed, Except.error e)

/-! ## C4 — switch-matrix diffing (src/sqc/station.py 161-176 and 190-205) -/

/-- One call issued to the switch-matrix driver. -/
inductive SwitchCall where
  | openCall (channels : Finset ℕ)
  | closeCall (channels : Finset ℕ)
  deriving DecidableEq

/-- Whether a switch call is an open-call. -/
def SwitchCall.isOpen : SwitchCall → Bool
  | .openCall _ => true
  | .closeCall _ => false

/-- Whether a switch call is a close-call. -/
def SwitchCall.isClose : SwitchCall → Bool
  | .openCall _ => false
  | .closeCall _ => true

/-- What one call of `Station.hv_switch_apply` / `Station.lv_switch_apply`
does. -/
structure SwitchApplyResult where
  /-- `Except.error ()` models the trailing `RuntimeError`. -/
  result : Except Unit Unit
  /-- The closed-channel set of the matrix when the call returns. -/
  closed : Finset ℕ
  /-- The driver calls issued, in order. -/
  calls : List SwitchCall
  deriving DecidableEq

/-- Embedding of `Station.hv_switch_apply` / `Station.lv_switch_apply`
(src/sqc/station.py 161-176, 190-205) against a driver whose
`open_channels` / `close_channels` remove resp. add exactly the given
channels: `closed0` is the closed-channel set on entry and `channels` the
requested set.  The source re-reads `closed_channels` after the open-call
before computing the channels to close, and issues each driver call only
when its channel set is non-empty. -/
def switch_apply (closed0 channels : Finset ℕ) : SwitchApplyResult :=
  let openChannels := closed0 \ channels
  let state1 := if openChannels = ∅ then (closed0, ([] : List SwitchCall))
    else (closed0 \ openChannels, [SwitchCall.openCall openChannels])
  let closeChannels := channels \ state1.1
  let state2 := if closeChannels = ∅ then state1
    else (state1.1 ∪ closeChannels, state1.2 ++ [SwitchCall.closeCall closeChannels])
  if state2.1 ≠ channels then ⟨Except.error (), state2.1, state2.2⟩
  else ⟨Except.ok (), state2.1, state2.2⟩

/-! ## C2 — capacitor discharge (src/sqc/station.py 708-768)

`CapacitorDischarge.__call__` sets the discharge relay, switches the SMU
to the front terminal, current sourcing and output on, checks the SMU
error queue, then repeatedly samples until discharged or timed out, then
switches output off, voltage sourcing, rear terminal, checks the error
queue again and releases the relay.  There is no try/finally: an
exception raised at either error-queue check (or inside sampling)
propagates without running the statements after it.  Wall-clock time is
idealised as the accumulated sample-sleep time, so one
`check_discharged_state` call takes `sample_count * sample_interval`
seconds. -/

/-- SMU route terminal. -/
inductive RouteTerminal where
  | front
  | rear
  deriving DecidableEq, Repr

/-- SMU source function. -/
inductive SMUFunction where
  | current
  | voltage
  deriving DecidableEq, Repr

/-- The instrument state the discharge procedure mutates. -/
structure DischargeState where
  routeTerminal : RouteTerminal
  smuFunction : SMUFunction
  output : Bool
  dischargeRelay : Bool
  deriving DecidableEq, Repr

/-- `CapacitorDischarge.sample_count`. -/
def sample_count : ℕ := 8

/-- `CapacitorDischarge.sample_interval` in seconds. -/
def sample_interval : ℚ := 1 / 4

/-- `CapacitorDischarge.threshold_voltage` in volt. -/
def threshold_voltage : ℚ := 3 / 10

/-- `CapacitorDischarge.timeout` in seconds. -/
def discharge_timeout : ℚ := 10

/-- Embedding of `CapacitorDischarge.check_discharged_state`
(src/sqc/station.py 718-728): the k-th call reads `sample_count` voltage
samples (`samples` enumerates all `smu.measure_voltage()` reads in order)
and compares their mean against the threshold. -/
def check_discharged_state (samples : ℕ → ℚ) (k : ℕ) : Bool :=
  decide (((List.range sample_count).map
      (fun i => samples (sample_count * k + i))).sum / (sample_count : ℚ)
    ≤ threshold_voltage)

/-- The `while True` loop of `CapacitorDischarge.__call__`
(src/sqc/station.py 747-755): check, break on success, break with
`success = False` once the elapsed time exceeds the timeout.  After `k+1`
checks the elapsed time is `(k+1) * sample_count * sample_interval`; the
fuel argument only bounds the recursion and never runs out when it covers
the timeout ceiling. -/
def dischargeLoop (samples : ℕ → ℚ) : ℕ → ℕ → Bool
  | _, 0 => false
  | k, fuel + 1 =>
      if check_discharged_state samples k then true
      else if ((k : ℚ) + 1) * ((sample_count : ℚ) * sample_interval) > discharge_timeout
        then false
      else dischargeLoop samples (k + 1) fuel

/-- Embedding of `CapacitorDischarge.__call__` (src/sqc/station.py
730-768).  `errBefore` / `errAfter` say whether the SMU error queue is
non-empty at the first resp. second `iter_errors` check (a non-empty
queue raises `RuntimeError` there).  Returns what the call does and the
instrument state when it exits.  Six checks fit into the 10 s timeout
(each takes 2 s and the loop breaks once the elapsed time exceeds 10 s),
so fuel 6 is exact. -/
def capacitorDischarge (errBefore errAfter : Bool) (samples : ℕ → ℚ) :
    Except Unit Bool × DischargeState :=
  let s1 : DischargeState :=
    ⟨RouteTerminal.front, SMUFunction.current, true, true⟩
  if errBefore then (Except.error (), s1)
  else
    let success := dischargeLoop samples 0 6
    let s2 : DischargeState :=
      ⟨RouteTerminal.rear, SMUFunction.voltage, false, true⟩
    if errAfter then (Except.error (), s2)
    else (Except.ok success,
      ⟨RouteTerminal.rear, SMUFunction.voltage, false, false⟩)

/-! ## C5 — cleanup and writer invocation (src/sqc/strategy.py 142-155, 325-355, 547-555) -/

/-- What one call of `SequenceStrategy.handle_sequence` does. -/
structure SeqRunResult where
  /-- How often `controller.finalize()` ran. -/
  finalizeCalls : ℕ
  /-- Exceptions passed to `context.handle_exception`, in order. -/
  handled : List PyExc
  /-- What propagates out of `handle_sequence`. -/
  result : Except PyExc Unit
  deriving DecidableEq

/-- Embedding of `SequenceStrategy.handle_sequence` (src/sqc/strategy.py
325-351).  `bodyExc` is the exception, if any, raised by the try-block
(`controller.initialize()`, the before-sequence hooks, the item loop and
the after-sequence hooks); the except-clause catches every such exception
and reports it, so the try/except part always completes, after which the
finally-clause runs `controller.finalize()` exactly once.  `finalizeExc`
is the exception, if any, raised by `controller.finalize()` itself; it
propagates to the caller. -/
def handle_sequence (bodyExc : Option PyExc) (finalizeExc : Option PyExc) : SeqRunResult :=
  let handledBody : List PyExc := match bodyExc with
    | some e => [e]
    | none => []
  match finalizeExc with
  | some f => ⟨1, handledBody, Except.error f⟩
  | none => ⟨1, handledBody, Except.ok ()⟩

/-- Embedding of `SequenceStrategy.serialize_data` (src/sqc/strategy.py
547-555): for every namespace of the collected data (in order), every
registered writer is called with that namespace's data.  Writers and
namespaces are identified by numeric ids; each call is recorded as
`(writer, namespace)`. -/
def serialize_data (namespaces : List ℕ) (writers : List ℕ) : List (ℕ × ℕ) :=
  namespaces.flatMap (fun ns => writers.map (fun w => (w, ns)))

/-- What one call of `SequenceStrategy.__call__` does from
`handle_sequence` on. -/
structure StrategyCallResult where
  /-- How often `controller.finalize()` ran. -/
  finalizeCalls : ℕ
  /-- Exceptions passed to `context.handle_exception`, in order. -/
  handled : List PyExc
  /-- The writer invocations `(writer, namespace)`, in order. -/
  writerCalls : List (ℕ × ℕ)
  deriving DecidableEq

/-- Embedding of `SequenceStrategy.__call__` (src/sqc/strategy.py
142-155) from the point where it reaches `handle_sequence`: the
try-clause runs `handle_sequence`, the except-clause reports any
exception that propagated out of it, and the finally-clause shows the
statistics and runs `serialize_data` in every case. -/
def strategy_call (bodyExc finalizeExc : Option PyExc)
    (namespaces writers : List ℕ) : StrategyCallResult :=
  let hs := handle_sequence bodyExc finalizeExc
  let handled2 : List PyExc := match hs.result with
    | Except.error e => hs.handled ++ [e]
    | Except.ok _ => hs.handled
  ⟨hs.finalizeCalls, handled2, serialize_data namespaces writers⟩

/-! ## C6 — strip pattern computation (src/sqc/strategy.py 164-182) -/

/-- A strip sub-item (child of a top-level sequence item): its identity,
its enabled flag and its `interval()` parameter. -/
structure StripItem where
  id : ℕ
  enabled : Bool
  interval : ℕ
  deriving DecidableEq, Repr

/-- Embedding of `enabled_items` (src/sqc/strategy.py 22-24). -/
def enabledItems (items : List StripItem) : List StripItem :=
  items.filter (fun it => it.enabled)

/-- Python `strips.setdefault(strip, []).append(strip_item)` on an
insertion-ordered dict represented as an association list: appends `v` to
the entry of `k`, creating the entry at the end if `k` is absent. -/
def dictAppend (d : List (String × List StripItem)) (k : String) (v : StripItem) :
    List (String × List StripItem) :=
  match d with
  | [] => [(k, [v])]
  | (k0, vs) :: rest =>
      if k0 = k then (k0, vs ++ [v]) :: rest else (k0, vs) :: dictAppend rest k v

/-- Lookup in the association-list dict; `[]` for an absent key (Python
distinguishes an absent key from an empty entry, but the pattern never
stores an empty entry). -/
def dictGet (d : List (String × List StripItem)) (k : String) : List StripItem :=
  match d with
  | [] => []
  | (k0, vs) :: rest => if k0 = k then vs else dictGet rest k

/-- The inner loop of `calculate_strip_pattern`: for one strip at `index`,
append every (already enabled-filtered) strip-item whose interval divides
the index. -/
def attachItems (d : List (String × List StripItem)) (strip : String) (index : ℕ)
    (items : List StripItem) : List (String × List StripItem) :=
  items.foldl
    (fun acc it => if index % it.interval = 0 then dictAppend acc strip it else acc) d

/-- The outer loop `for index, strip in enumerate(all_strips)` of
`calculate_strip_pattern`: strips in order with a running 0-based index,
processing only strips in the selected range. -/
def patternLoop (selected : List String) (children : List StripItem) :
    List String → ℕ → List (String × List StripItem) → List (String × List StripItem)
  | [], _, d => d
  | s :: rest, index, d =>
      patternLoop selected children rest (index + 1)
        (if s ∈ selected then attachItems d s index children else d)

/-- Embedding of `SequenceStrategy.calculate_strip_pattern`
(src/sqc/strategy.py 164-182): `allStrips` is the full padfile strip
list, `selected` the strips selected by the item's strip expression, and
`children` the item's strip sub-items. -/
def calculate_strip_pattern (allStrips selected : List String)
    (children : List StripItem) : List (String × List StripItem) :=
  patternLoop selected (enabledItems children) allStrips 0 []

/-- The strip-items that the strips of a list contribute to the dict
entry of strip `k`, in order: used to state what `patternLoop` builds. -/
def stripContrib (selected : List String) (children : List StripItem) (k : String) :
    List String → ℕ → List StripItem
  | [], _ => []
  | s :: rest, index =>
      (if s = k ∧ s ∈ selected
        then children.filter (fun it => index % it.interval == 0) else []) ++
        stripContrib selected children k rest (index + 1)

/-! ## C8 — movement-wait loop (src/sqc/controller/table.py 59-72)

`Table.wait_movement_finished` reads the position once, then loops:
raise a timeout error when the elapsed time exceeds `poll_timeout`, sleep
`poll_interval`, read the next position sample, invoke the
position-changed callback with it, and stop as soon as the last two
samples are equal.  Wall-clock time is idealised as the accumulated sleep
time, so at the top of the iteration after `j` sleeps the elapsed time is
`j * interval`. -/

/-- A table position as the driver reports it (`driver.pos`). -/
abbrev Pos := ℤ × ℤ × ℤ

/-- What one call of `Table.wait_movement_finished` does. -/
structure WaitRun where
  /-- `Except.ok n` means the loop broke right after reading sample `n`;
  `Except.error ()` models the raised `RuntimeError` movement timeout. -/
  result : Except Unit ℕ
  /-- The positions passed to the `position_changed` callback, in order
  (one invocation per polled sample). -/
  callbacks : List Pos
  /-- The number of `time.sleep(poll_interval)` calls (one full poll
  interval is slept before every polled sample). -/
  sleeps : ℕ
  deriving DecidableEq, Repr

/-- The `while True` loop of `Table.wait_movement_finished`: `samples n`
is the n-th `driver.pos` read (sample 0 is read before the loop), `j` the
number of sleeps performed so far (so samples `j` and `j+1` are the two
the iteration compares), and `fuel` only bounds the recursion — it never
runs out when it covers the timeout ceiling. -/
def waitLoop (samples : ℕ → Pos) (interval timeout : ℚ) : ℕ → ℕ → WaitRun
  | _, 0 => ⟨Except.error (), [], 0⟩
  | j, fuel + 1 =>
      if (j : ℚ) * interval > timeout then ⟨Except.error (), [], 0⟩
      else
        if samples j = samples (j + 1) then ⟨Except.ok (j + 1), [samples (j + 1)], 1⟩
        else
          ⟨(waitLoop samples interval timeout (j + 1) fuel).result,
            samples (j + 1) :: (waitLoop samples interval timeout (j + 1) fuel).callbacks,
            (waitLoop samples interval timeout (j + 1) fuel).sleeps + 1⟩

/-- Embedding of `Table.wait_movement_finished`
(src/sqc/controller/table.py 59-72). -/
def wait_movement_finished (samples : ℕ → Pos) (interval timeout : ℚ) (fuel : ℕ) :
    WaitRun :=
  waitLoop samples interval timeout 0 fuel

/-- `Table.poll_interval` in seconds. -/
def poll_interval : ℚ := 1 / 10

/-- `Table.poll_timeout` in seconds. -/
def poll_timeout : ℚ := 60

/-- A concrete position trace that stabilizes at the fourth sample:
`(0,0,0), (1,0,0), (2,0,0), (3,0,0), (3,0,0), ...`. -/
def sampleTrace (n : ℕ) : Pos := if n < 3 then ((n : ℤ), 0, 0) else (3, 0, 0)

/-! ## C9 — data row insertion (src/src/sqc/context.py 20-27, 171-175) -/

/-- One data row recorded by a measurement: `sortkey` is the value of the
row's sortkey column (for example the strip index) and `payload` stands
for all its other columns. -/
structure Row where
  sortkey : ℤ
  payload : ℕ
  deriving DecidableEq, Repr

/-- Python dict assignment `d[k] = v` on an insertion-ordered dict
represented as an association list: replaces the value in place when the
key exists, else appends a new entry. -/
def rowDictInsert (d : List (ℤ × Row)) (k : ℤ) (v : Row) : List (ℤ × Row) :=
  match d with
  | [] => [(k, v)]
  | (k0, v0) :: rest =>
      if k0 = k then (k0, v) :: rest else (k0, v0) :: rowDictInsert rest k v

/-- Embedding of `list_to_dict` (src/src/sqc/context.py 20-21):
`{item.get(sortkey): item for item in items}` — keys in order of first
occurrence, the last occurrence's value winning. -/
def list_to_dict (items : List Row) : List (ℤ × Row) :=
  items.foldl (fun d item => rowDictInsert d item.sortkey item) []

/-- Embedding of `auto_insert_item` (src/src/sqc/context.py 24-27): turn
the stored rows into a dict keyed by their sortkey value, overwrite or
insert the new row at its sortkey, and return the dict values sorted by
sortkey.  Python's `sorted` is a stable mergesort; since the dict keys
are pairwise distinct there are no ties and any comparison sort returns
the same list, so an insertion sort embeds it faithfully. -/
def auto_insert_item (items : List Row) (data : Row) : List Row :=
  ((rowDictInsert (list_to_dict items) data.sortkey data).map Prod.snd).insertionSort
    (fun a b => a.sortkey ≤ b.sortkey)

/-- The sortkey/key coherence invariant of the row dicts: every entry's
value carries the entry's key as its sortkey. -/
def RowKeyInv (d : List (ℤ × Row)) : Prop :=
  ∀ p ∈ d, (p : ℤ × Row).2.sortkey = p.1

/-! ## C10 — strip-range expansion (src/sqc/core/utils.py 28-34, 66-71) -/

/-- Embedding of `extract_slice` (src/sqc/core/utils.py 28-34):
`names.index(x)` is the first index of `x` in the list and raises
`ValueError` when `x` is absent; a slice whose start index lies after its
end index raises `ValueError("invalid pad slice")`; otherwise the result
is `names[start_index : end_index + 1]`. -/
def extract_slice (names : List String) (first last : String) :
    Except String (List String) :=
  match names.indexOf? first, names.indexOf? last with
  | some si, some ei =>
      if si ≤ ei then Except.ok ((names.drop si).take (ei + 1 - si))
      else Except.error "invalid pad slice"
  | _, _ => Except.error "not in list"

/-- A Python set of names as a duplicate-free list: `set.update(l)` adds
the not-yet-present elements of `l`. -/
def setUpdate (acc : List String) (l : List String) : List String :=
  l.foldl (fun a s => if s ∈ a then a else a ++ [s]) acc

/-- The per-range set-union loop of `parse_strips`
(src/sqc/core/utils.py 68-70): `unsorted_names.update(extract_slice(...))`
for every `(start, end)` pair of the parsed strip expression, propagating
the first raised error. -/
def collectStrips (names : List String) :
    List (String × String) → List String → Except String (List String)
  | [], acc => Except.ok acc
  | r :: rest, acc =>
      match extract_slice names r.1 r.2 with
      | Except.error e => Except.error e
      | Except.ok slice => collectStrips names rest (setUpdate acc slice)

/-- Embedding of `parse_strips` (src/sqc/core/utils.py 66-71): expand all
ranges of the expression into a set of names and return them sorted by
`names.index`.  Distinct names have distinct first indices, so Python's
stable `sorted` agrees with any comparison sort and an insertion sort
embeds it faithfully. -/
def parse_strips (names : List String) (ranges : List (String × String)) :
    Except String (List String) :=
  match collectStrips names ranges [] with
  | Except.error e => Except.error e
  | Except.ok sel =>
      Except.ok (sel.insertionSort
        (fun a b => names.indexOf a ≤ names.indexOf b))

/-! ## Theorems for C3 -/

/-- C3 counterexample: the claim says attempt `k` uses the k-th element of
the cycle `[0, +5, -5, +2, -2]` as its offset relative to the nominal
x-position; on the third attempt (k = 2) the claimed offset is `-5`, but
the code contacts at the nominal position (cumulative offset `0`). -/
theorem C3_counterexample : ¬ (attemptX 0 2 = 0 + offsetAt 2) := by decide

/-- C3 (amended): each contact attempt adds the next cycle element to the
previous attempt's x-position, so relative to the nominal x-position
attempt `k` sits at the k-th prefix sum of the cycle: the period-5
sequence `0, +5, 0, +2, 0` (micrometer), never at `-5` or `-2`. -/
theorem C3_offsets_cumulative :
    (∀ (nominal : ℤ) (k : ℕ), attemptX nominal k = nominal + cumulativeOffset (k % 5)) ∧
    attemptX 0 2 = 0 ∧ offsetAt 2 = -5 := by
  refine ⟨?_, by decide, by decide⟩
  intro nominal k
  induction k with
  | zero => simp [attemptX, offsetAt, cumulativeOffset, x_offsets]
  | succ k ih =>
      have h5 : (k + 1) % 5 = (k % 5 + 1) % 5 := by omega
      rw [attemptX, ih]
      rcases (show k % 5 = 0 ∨ k % 5 = 1 ∨ k % 5 = 2 ∨ k % 5 = 3 ∨ k % 5 = 4 by omega) with
        h | h | h | h | h <;> simp [offsetAt, x_offsets, cumulativeOffset, h5, h]

/-! ## Theorems for C7 -/

/-- C7 (code bug): with `x.caldone = 0x3`, `y.caldone = 0x3` but
`z.caldone = 0` the six-step calibration procedure completes without
raising, although the z axis does not report the calibration-done mask:
`Table.is_calibrated` reads the x axis twice and never the z axis. -/
theorem C7_z_axis_never_checked :
    (requestCalibrate ⟨0x3, 0x3, 0⟩).result = Except.ok () ∧
    is_calibrated ⟨0x3, 0x3, 0⟩ = true ∧
    (⟨0x3, 0x3, 0⟩ : AxesCaldone).z ≠ 0x3 ∧
    (∀ a : AxesCaldone, is_calibrated a = (decide (a.x = 0x3) && decide (a.y = 0x3))) := by
  refine ⟨by decide, by decide, by decide, ?_⟩
  intro a
  by_cases hx : a.x = 0x3 <;> by_cases hy : a.y = 0x3 <;> simp [is_calibrated, hx, hy]

/-! ## Theorems for C1 -/

/-- Helper: when every attempt raises `AnalysisError`, the remeasure loop
runs once per remaining range element and increments the remeasure counter
on every attempt with a non-zero index. -/
theorem autoRepeat_analysis_all (remaining : ℕ) :
    ∀ attempt : ℕ, attempt ≠ 0 →
      autoRepeatLoop (fun _ => MeasOutcome.analysis) attempt remaining =
        ⟨Except.ok false, remaining, remaining⟩ := by
  induction remaining with
  | zero => intro attempt h; simp [autoRepeatLoop]
  | succ n ih =>
      intro attempt h
      simp [autoRepeatLoop, runMeasurement, h, ih (attempt + 1) (by omega)]

/-- C1 (code bug): when a strip-item's measurement raises
`ComplianceError`, `handle_strip_item` marks the item `Compliance` and the
remeasure loop is not re-entered (one single `run_measurement` call, no
remeasure-counter increment, no recontact request) — but the trailing
`return result` then raises `UnboundLocalError`, because the
`except ComplianceError` clause never assigns `result`; that exception
propagates out of `handle_strip_items`, so the run does not simply
continue with the next work item.  The remeasure loop itself retries only
on `AnalysisError`, exactly `attempts` extra times, before requesting a
recontact (`Except.ok false`). -/
theorem C1_compliance_unbound_local :
    handle_strip_item 3 false (fun _ => MeasOutcome.compliance) =
      (ItemState.compliance, Except.error PyExc.unboundLocalError) ∧
    (auto_repeat_measurement 3 (fun _ => MeasOutcome.compliance)).runs = 1 ∧
    (auto_repeat_measurement 3 (fun _ => MeasOutcome.compliance)).remeasures = 0 ∧
    (∀ attempts : ℕ,
      auto_repeat_measurement attempts (fun _ => MeasOutcome.analysis) =
        ⟨Except.ok false, attempts + 1, attempts⟩) ∧
    handle_strip_item 2 false
        (fun n => if n = 2 then MeasOutcome.ok else MeasOutcome.analysis) =
      (ItemState.success, Except.ok true) := by
  refine ⟨by decide, by decide, by decide, ?_, by decide⟩
  intro attempts
  simp [auto_repeat_measurement, autoRepeatLoop, runMeasurement,
    autoRepeat_analysis_all attempts 1 (by omega)]

/-! ## Theorems for C4 -/

/-- C4 counterexample: with the closed set `{1}` and the desired set `{1}`
the code issues no open-call and no close-call at all (both diffs are
empty), refuting that exactly one open-call and exactly one close-call are
issued for every pair of current and desired channel sets. -/
theorem C4_counterexample :
    ¬ ((((switch_apply {1} {1}).calls.countP SwitchCall.isOpen) = 1) ∧
       (((switch_apply {1} {1}).calls.countP SwitchCall.isClose) = 1)) := by decide

/-- C4 (amended): for current closed set `cl` and desired set `de`,
`switch_apply` issues one open-call with channel set `cl \ de` exactly
when that set is non-empty, then one close-call with channel set `de \ cl`
exactly when that set is non-empty (the open-call, when issued, always
precedes the close-call), issues no other calls, and returns without
raising with the closed set equal to `de`. -/
theorem C4_switch_apply_diff (cl de : Finset ℕ) :
    (switch_apply cl de).result = Except.ok () ∧
    (switch_apply cl de).closed = de ∧
    (switch_apply cl de).calls =
      (if cl \ de = ∅ then [] else [SwitchCall.openCall (cl \ de)]) ++
      (if de \ cl = ∅ then [] else [SwitchCall.closeCall (de \ cl)]) := by
  have hCD : cl \ (cl \ de) = cl ∩ de := Finset.sdiff_sdiff_self_left cl de
  have hD1 : de \ (cl ∩ de) = de \ cl := by
    rw [Finset.inter_comm]; exact Finset.sdiff_inter_self_left de cl
  by_cases h1 : cl \ de = ∅
  · have hsub : cl ⊆ de := Finset.sdiff_eq_empty_iff_subset.mp h1
    by_cases h2 : de \ cl = ∅
    · have hsub2 : de ⊆ cl := Finset.sdiff_eq_empty_iff_subset.mp h2
      have heq : cl = de := Finset.Subset.antisymm hsub hsub2
      subst heq
      simp [switch_apply, h1]
    · have hu : cl ∪ de \ cl = de := Finset.union_sdiff_of_subset hsub
      simp [switch_apply, h1, h2, hu]
  · by_cases h2 : de \ cl = ∅
    · have hsub2 : de ⊆ cl := Finset.sdiff_eq_empty_iff_subset.mp h2
      have hint : cl ∩ de = de := Finset.inter_eq_right.mpr hsub2
      simp [switch_apply, h1, h2, hCD, hD1, hint]
    · have hu : cl ∩ de ∪ de \ cl = de := by
        ext a
        simp only [Finset.mem_union, Finset.mem_inter, Finset.mem_sdiff]
        tauto
      simp [switch_apply, h1, h2, hCD, hD1, hu]

/-! ## Theorems for C2 -/

/-- C2 counterexample: the restoration is not on every exit path.  If the
SMU error queue is non-empty at the first check (after the relay was set
and the SMU switched to front terminal, current sourcing, output on), the
raised `RuntimeError` exits the procedure with the relay still engaged,
the terminal still front and the function still current; if it is
non-empty only at the second check, the raised error exits with terminal
and function restored but the relay still engaged. -/
theorem C2_counterexample :
    (capacitorDischarge true false (fun _ => 0)).1 = Except.error () ∧
    (capacitorDischarge true false (fun _ => 0)).2.dischargeRelay = true ∧
    (capacitorDischarge true false (fun _ => 0)).2.routeTerminal = RouteTerminal.front ∧
    (capacitorDischarge true false (fun _ => 0)).2.smuFunction = SMUFunction.current ∧
    (capacitorDischarge false true (fun _ => 0)).1 = Except.error () ∧
    (capacitorDischarge false true (fun _ => 0)).2.dischargeRelay = true := by
  refine ⟨rfl, rfl, rfl, rfl, ?_, ?_⟩ <;> rfl

/-- C2 (amended): on both normal exit paths — discharge succeeded, or the
overall timeout elapsed and the loop gave up — the SMU route terminal is
restored to rear, the function to voltage sourcing, the output switched
off and the discharge relay released; an exception raised at one of the
SMU error-queue checks instead propagates without completing the
restoration.  The discharged judgement samples the measured voltage 8
times at 0.25 s spacing and succeeds exactly when the sample mean is at
most the 0.3 V threshold. -/
theorem C2_discharge_restores_on_normal_exit (samples : ℕ → ℚ) :
    (capacitorDischarge false false samples).1 =
      Except.ok (dischargeLoop samples 0 6) ∧
    (capacitorDischarge false false samples).2 =
      ⟨RouteTerminal.rear, SMUFunction.voltage, false, false⟩ ∧
    sample_count = 8 ∧ sample_interval = 1 / 4 ∧
    (∀ k : ℕ, check_discharged_state samples k =
      decide (((List.range 8).map (fun i => samples (8 * k + i))).sum / 8
        ≤ 3 / 10)) := by
  refine ⟨rfl, rfl, rfl, rfl, fun k => rfl⟩

/-! ## Theorems for C5 -/

/-- Helper: each writer is invoked once per namespace by
`serialize_data`. -/
theorem serialize_data_countP (w : ℕ) (namespaces writers : List ℕ) :
    (serialize_data namespaces writers).countP (fun c => c.1 == w) =
      namespaces.length * writers.count w := by
  induction namespaces with
  | nil => simp [serialize_data]
  | cons ns rest ih =>
      simp only [serialize_data, List.flatMap_cons, List.countP_append,
        List.countP_map] at *
      rw [ih]
      have hc : writers.countP ((fun c : ℕ × ℕ => c.1 == w) ∘ fun w' => (w', ns)) =
          writers.count w := rfl
      rw [hc, List.length_cons]
      ring

/-- C5 counterexample: a writer registered for a run is not invoked
exactly once per run.  On a run whose collected data is empty (for
example one aborted before any row was inserted) the writer is invoked
zero times, and on a run that collected data under two namespaces it is
invoked twice. -/
theorem C5_counterexample :
    ¬ ((∀ namespaces : List ℕ,
        (strategy_call none none namespaces [7]).writerCalls.countP
          (fun c => c.1 == 7) = 1)) := by
  intro h
  have h0 := h []
  simp [strategy_call, serialize_data, handle_sequence] at h0

/-- C5 (amended): for every run that reaches `handle_sequence` — whether
its body completes, raises, or is aborted — the Station cleanup path
(`controller.finalize()`) runs exactly once, and each registered writer
is invoked exactly once per namespace of the collected data (hence
`namespaces.length` times in total, and zero times when no data was
collected), with the collected data of that namespace. -/
theorem C5_cleanup_once_writers_per_namespace
    (bodyExc finalizeExc : Option PyExc) (namespaces writers : List ℕ) :
    (strategy_call bodyExc finalizeExc namespaces writers).finalizeCalls = 1 ∧
    (strategy_call bodyExc finalizeExc namespaces writers).writerCalls =
      serialize_data namespaces writers ∧
    (∀ w : ℕ,
      (strategy_call bodyExc finalizeExc namespaces writers).writerCalls.countP
          (fun c => c.1 == w) = namespaces.length * writers.count w) := by
  refine ⟨?_, rfl, fun w => ?_⟩
  · cases bodyExc <;> cases finalizeExc <;> rfl
  · exact serialize_data_countP w namespaces writers

/-! ## Theorems for C6 -/

/-- Helper: appending under key `k` extends exactly the entry of `k`. -/
theorem dictGet_dictAppend (d : List (String × List StripItem)) (k k' : String)
    (v : StripItem) :
    dictGet (dictAppend d k v) k' =
      if k = k' then dictGet d k' ++ [v] else dictGet d k' := by
  induction d with
  | nil =>
      by_cases h : k = k' <;> simp [dictAppend, dictGet, h]
  | cons p rest ih =>
      obtain ⟨k0, vs⟩ := p
      by_cases h0 : k0 = k
      · subst h0
        by_cases h : k0 = k' <;> simp [dictAppend, dictGet, h]
      · by_cases h : k0 = k'
        · subst h
          have hkk : ¬ k = k0 := fun hh => h0 hh.symm
          simp [dictAppend, dictGet, h0, hkk]
        · simp [dictAppend, dictGet, h0, h, ih]

/-- Helper: the inner loop extends exactly the entry of its strip by the
items whose interval divides the index. -/
theorem dictGet_attachItems (items : List StripItem)
    (d : List (String × List StripItem)) (s : String) (index : ℕ) (k : String) :
    dictGet (attachItems d s index items) k =
      if s = k
        then dictGet d k ++ items.filter (fun it => index % it.interval == 0)
        else dictGet d k := by
  induction items generalizing d with
  | nil => by_cases h : s = k <;> simp [attachItems, h]
  | cons it rest ih =>
      have hstep : attachItems d s index (it :: rest) =
          attachItems (if index % it.interval = 0 then dictAppend d s it else d)
            s index rest := rfl
      rw [hstep, ih]
      by_cases hdiv : index % it.interval = 0 <;>
        by_cases h : s = k <;>
          simp [hdiv, h, dictGet_dictAppend, List.filter_cons]

/-- Helper: what the outer loop of `calculate_strip_pattern` builds under
each key. -/
theorem dictGet_patternLoop (selected : List String) (children : List StripItem)
    (strips : List String) :
    ∀ (index : ℕ) (d : List (String × List StripItem)) (k : String),
      dictGet (patternLoop selected children strips index d) k =
        dictGet d k ++ stripContrib selected children k strips index := by
  induction strips with
  | nil => intro index d k; simp [patternLoop, stripContrib]
  | cons s rest ih =>
      intro index d k
      rw [patternLoop, ih, stripContrib]
      by_cases hsel : s ∈ selected
      · rw [if_pos hsel, dictGet_attachItems]
        by_cases hk : s = k
        · subst hk
          simp [hsel]
        · simp [hk]
      · rw [if_neg hsel]
        have hno : ¬ (s = k ∧ s ∈ selected) := fun hc => hsel hc.2
        simp [hno]

/-- Helper: strips other than `k` contribute nothing to the entry of `k`. -/
theorem stripContrib_not_mem (selected : List String) (children : List StripItem)
    (k : String) (strips : List String) :
    ∀ index : ℕ, k ∉ strips → stripContrib selected children k strips index = [] := by
  induction strips with
  | nil => intro index _; rfl
  | cons s rest ih =>
      intro index hk
      rw [stripContrib]
      have hs : ¬ (s = k ∧ s ∈ selected) := by
        rintro ⟨rfl, -⟩
        exact hk (List.mem_cons_self s rest)
      rw [if_neg hs, ih (index + 1) (fun hmem => hk (List.mem_cons_of_mem s hmem))]
      rfl

/-- Helper: on a duplicate-free strip list, the entry of the strip at
position `i` collects exactly the enabled-filtered items whose interval
divides `index0 + i`, provided the strip is selected. -/
theorem stripContrib_nodup (selected : List String) (children : List StripItem)
    (k : String) (strips : List String) :
    ∀ (index0 i : ℕ), strips.Nodup → strips.get? i = some k →
      stripContrib selected children k strips index0 =
        if k ∈ selected
          then children.filter (fun it => (index0 + i) % it.interval == 0)
          else [] := by
  induction strips with
  | nil => intro index0 i _ h; simp [List.get?] at h
  | cons s rest ih =>
      intro index0 i hnd h
      match i with
      | 0 =>
          have hs : s = k := by simpa [List.get?] using h
          subst hs
          have hnotmem : s ∉ rest := (List.nodup_cons.mp hnd).1
          rw [stripContrib, stripContrib_not_mem selected children s rest (index0 + 1) hnotmem]
          by_cases hsel : s ∈ selected <;> simp [hsel]
      | i + 1 =>
          have hrest : rest.get? i = some k := by simpa [List.get?] using h
          have hmem : k ∈ rest := List.get?_mem hrest
          have hnotmem : s ∉ rest := (List.nodup_cons.mp hnd).1
          have hne : ¬ (s = k ∧ s ∈ selected) := by
            rintro ⟨rfl, -⟩
            exact hnotmem hmem
          rw [stripContrib, if_neg hne,
            ih (index0 + 1) i (List.nodup_cons.mp hnd).2 hrest]
          have harith : index0 + 1 + i = index0 + (i + 1) := by omega
          rw [harith]
          rfl

/-- C6: on a duplicate-free padfile strip list, the computed strip
pattern attaches an enabled sub-item to a strip exactly when the strip is
in the item's selected range and the sub-item's interval divides the
strip's 0-based index in the full strip list. -/
theorem C6_strip_pattern (allStrips selected : List String) (children : List StripItem)
    (i : ℕ) (s : String) (c : StripItem)
    (hnd : allStrips.Nodup) (hi : allStrips.get? i = some s) :
    c ∈ dictGet (calculate_strip_pattern allStrips selected children) s ↔
      (c ∈ children ∧ c.enabled = true ∧ s ∈ selected ∧ i % c.interval = 0) := by
  rw [calculate_strip_pattern, dictGet_patternLoop,
    stripContrib_nodup selected (enabledItems children) s allStrips 0 i hnd hi]
  by_cases hsel : s ∈ selected
  · rw [if_pos hsel]
    simp only [dictGet, List.nil_append, enabledItems, List.mem_filter,
      Nat.zero_add, beq_iff_eq]
    tauto
  · simp [hsel, dictGet]

/-- C6 witness: for strips S1..S10, a single enabled sub-item with
interval 3 and a full-range selection, the sub-item is attached to the
strip at index 3. -/
theorem C6_strip_pattern_witness :
    ((["S1", "S2", "S3", "S4", "S5", "S6", "S7", "S8", "S9", "S10"] :
        List String).Nodup ∧
      (["S1", "S2", "S3", "S4", "S5", "S6", "S7", "S8", "S9", "S10"] :
        List String).get? 3 = some "S4") ∧
    ((⟨0, true, 3⟩ : StripItem) ∈
        dictGet (calculate_strip_pattern
          ["S1", "S2", "S3", "S4", "S5", "S6", "S7", "S8", "S9", "S10"]
          ["S1", "S2", "S3", "S4", "S5", "S6", "S7", "S8", "S9", "S10"]
          [⟨0, true, 3⟩]) "S4" ↔
      ((⟨0, true, 3⟩ : StripItem) ∈ [(⟨0, true, 3⟩ : StripItem)] ∧
        (⟨0, true, 3⟩ : StripItem).enabled = true ∧
        ("S4" : String) ∈
          (["S1", "S2", "S3", "S4", "S5", "S6", "S7", "S8", "S9", "S10"] :
            List String) ∧
        3 % (⟨0, true, 3⟩ : StripItem).interval = 0)) :=
  ⟨⟨by decide, by decide⟩,
    C6_strip_pattern
      ["S1", "S2", "S3", "S4", "S5", "S6", "S7", "S8", "S9", "S10"]
      ["S1", "S2", "S3", "S4", "S5", "S6", "S7", "S8", "S9", "S10"]
      [⟨0, true, 3⟩] 3 "S4" ⟨0, true, 3⟩ (by decide) (by decide)⟩

/-! ## Theorems for C8 -/

/-- Helper: if the samples stabilize at sample `M+1` (the first pair of
equal consecutive reads not yet seen at entry), the loop returns at
sample `M+1`, having slept once before and fired the callback on every
polled sample. -/
theorem waitLoop_stabilizes (samples : ℕ → Pos) (interval timeout : ℚ) (M : ℕ)
    (hM : samples M = samples (M + 1)) :
    ∀ (fuel j : ℕ), j ≤ M →
      (∀ m, j ≤ m → m < M → samples m ≠ samples (m + 1)) →
      (∀ m, j ≤ m → m ≤ M → (m : ℚ) * interval ≤ timeout) →
      M + 1 - j ≤ fuel →
      waitLoop samples interval timeout j fuel =
        ⟨Except.ok (M + 1), (List.range' (j + 1) (M + 1 - j)).map samples, M + 1 - j⟩ := by
  intro fuel
  induction fuel with
  | zero => intro j hj _ _ hfuel; omega
  | succ fuel ih =>
      intro j hj hne htime hfuel
      rw [waitLoop, if_neg (not_lt.mpr (htime j le_rfl hj))]
      by_cases hjM : j = M
      · subst hjM
        rw [if_pos hM]
        have h1 : j + 1 - j = 1 := by omega
        rw [h1, List.range'_one]
        rfl
      · have hne0 : samples j ≠ samples (j + 1) := hne j le_rfl (by omega)
        rw [if_neg hne0,
          ih (j + 1) (by omega) (fun m hm1 hm2 => hne m (by omega) hm2)
            (fun m hm1 hm2 => htime m (by omega) hm2) (by omega)]
        have h1 : M + 1 - (j + 1) = M - j := by omega
        have h2 : M + 1 - j = (M - j) + 1 := by omega
        rw [h1, h2, List.range'_succ]
        rfl

/-- Helper: if no two consecutive samples agree before the timeout
ceiling `J` (the first sleep count whose elapsed time exceeds the
timeout), the loop raises the timeout error at the top of iteration `J`,
after `J` sleeps and `J` callback invocations. -/
theorem waitLoop_timeout (samples : ℕ → Pos) (interval timeout : ℚ) (J : ℕ)
    (hJ : (J : ℚ) * interval > timeout) :
    ∀ (fuel j : ℕ), j ≤ J →
      (∀ m, j ≤ m → m < J → samples m ≠ samples (m + 1)) →
      (∀ m, j ≤ m → m < J → (m : ℚ) * interval ≤ timeout) →
      J + 1 - j ≤ fuel →
      waitLoop samples interval timeout j fuel =
        ⟨Except.error (), (List.range' (j + 1) (J - j)).map samples, J - j⟩ := by
  intro fuel
  induction fuel with
  | zero => intro j hj _ _ hfuel; omega
  | succ fuel ih =>
      intro j hj hne htime hfuel
      by_cases hjJ : j = J
      · subst hjJ
        rw [waitLoop, if_pos hJ]
        have h1 : j - j = 0 := by omega
        rw [h1, List.range'_zero]
        rfl
      · rw [waitLoop, if_neg (not_lt.mpr (htime j le_rfl (by omega))),
          if_neg (hne j le_rfl (by omega)),
          ih (j + 1) (by omega) (fun m hm1 hm2 => hne m (by omega) hm2)
            (fun m hm1 hm2 => htime m (by omega) hm2) (by omega)]
        have h1 : J - (j + 1) = J - j - 1 := by omega
        have h2 : J - j = (J - j - 1) + 1 := by omega
        rw [h1, h2, List.range'_succ]
        rfl

/-- C8: the movement-wait loop returns exactly at the first sample at
which two consecutive position reads are equal — sample `M+1` when
`samples M = samples (M+1)` is the first such pair — having slept one
full poll interval before every polled sample (`M+1` sleeps) and invoked
the position-changed callback once per polled sample, in order
(`samples 1 .. samples (M+1)`); and if no two consecutive samples are
ever equal within the wall-clock timeout (`J` being the first sleep
count whose elapsed time exceeds it), it raises the movement-timeout
error instead of polling further, after `J` sleeps and `J` callback
invocations. -/
theorem C8_wait_movement_finished (samples : ℕ → Pos) (interval timeout : ℚ)
    (fuel : ℕ) :
    (∀ M : ℕ, samples M = samples (M + 1) →
      (∀ m, m < M → samples m ≠ samples (m + 1)) →
      (∀ m, m ≤ M → (m : ℚ) * interval ≤ timeout) →
      M + 1 ≤ fuel →
      wait_movement_finished samples interval timeout fuel =
        ⟨Except.ok (M + 1), (List.range' 1 (M + 1)).map samples, M + 1⟩) ∧
    (∀ J : ℕ, (∀ m, m < J → samples m ≠ samples (m + 1)) →
      (∀ m, m < J → (m : ℚ) * interval ≤ timeout) →
      (J : ℚ) * interval > timeout →
      J + 1 ≤ fuel →
      wait_movement_finished samples interval timeout fuel =
        ⟨Except.error (), (List.range' 1 J).map samples, J⟩) := by
  constructor
  · intro M hM hne htime hfuel
    have h := waitLoop_stabilizes samples interval timeout M hM fuel 0 (by omega)
      (fun m hm1 hm2 => hne m hm2) (fun m hm1 hm2 => htime m hm2) (by omega)
    simpa [wait_movement_finished] using h
  · intro J hne htime hJ hfuel
    have h := waitLoop_timeout samples interval timeout J hJ fuel 0 (by omega)
      (fun m hm1 hm2 => hne m hm2) (fun m hm1 hm2 => htime m hm2) (by omega)
    simpa [wait_movement_finished] using h

/-- C8 witness: for the trace `(0,0,0), (1,0,0), (2,0,0), (3,0,0),
(3,0,0), ...` with the Table poll constants, the loop returns at sample
4 (the first repeated read), after 4 sleeps and 4 callback invocations. -/
theorem C8_wait_movement_finished_witness :
    (sampleTrace 3 = sampleTrace 4 ∧
      (∀ m : ℕ, m < 3 → sampleTrace m ≠ sampleTrace (m + 1)) ∧
      (∀ m : ℕ, m ≤ 3 → (m : ℚ) * poll_interval ≤ poll_timeout) ∧
      3 + 1 ≤ 601) ∧
    wait_movement_finished sampleTrace poll_interval poll_timeout 601 =
      ⟨Except.ok 4, (List.range' 1 4).map sampleTrace, 4⟩ :=
  ⟨⟨by decide, by decide,
      by
        intro m hm
        rcases (show m = 0 ∨ m = 1 ∨ m = 2 ∨ m = 3 by omega) with h | h | h | h <;>
          subst h <;> norm_num [poll_interval, poll_timeout],
      by decide⟩,
    (C8_wait_movement_finished sampleTrace poll_interval poll_timeout 601).1 3
      (by decide) (by decide)
      (by
        intro m hm
        rcases (show m = 0 ∨ m = 1 ∨ m = 2 ∨ m = 3 by omega) with h | h | h | h <;>
          subst h <;> norm_num [poll_interval, poll_timeout])
      (by decide)⟩

/-! ## Theorems for C9 -/

/-- Helper: inserting a row at its own sortkey preserves the
key/sortkey coherence of the dict. -/
theorem rowDictInsert_keyInv (d : List (ℤ × Row)) (v : Row)
    (hd : RowKeyInv d) : RowKeyInv (rowDictInsert d v.sortkey v) := by
  induction d with
  | nil =>
      intro p hp
      simp only [rowDictInsert, List.mem_singleton] at hp
      subst hp; rfl
  | cons q rest ih =>
      obtain ⟨k0, v0⟩ := q
      have hd0 : (v0 : Row).sortkey = k0 := hd (k0, v0) (List.mem_cons_self _ _)
      have hdrest : RowKeyInv rest := fun p hp => hd p (List.mem_cons_of_mem _ hp)
      by_cases h : k0 = v.sortkey
      · intro p hp
        simp only [rowDictInsert, if_pos h] at hp
        rcases List.mem_cons.mp hp with h1 | h1
        · subst h1; exact h.symm
        · exact hd p (List.mem_cons_of_mem _ h1)
      · intro p hp
        simp only [rowDictInsert, if_neg h] at hp
        rcases List.mem_cons.mp hp with h1 | h1
        · subst h1; exact hd0
        · exact ih hdrest p h1

/-- Helper: the key list after a dict assignment — unchanged when the key
was present, extended by the key at the end otherwise. -/
theorem rowDictInsert_keys (d : List (ℤ × Row)) (k : ℤ) (v : Row) :
    (rowDictInsert d k v).map Prod.fst =
      if k ∈ d.map Prod.fst then d.map Prod.fst else d.map Prod.fst ++ [k] := by
  induction d with
  | nil => simp [rowDictInsert]
  | cons q rest ih =>
      obtain ⟨k0, v0⟩ := q
      by_cases h : k0 = k
      · subst h; simp [rowDictInsert]
      · have hne : ¬ k = k0 := fun hh => h hh.symm
        by_cases hk : k ∈ rest.map Prod.fst <;>
          simp [rowDictInsert, h, ih, hne, hk]

/-- Helper: a dict assignment keeps the key list duplicate-free. -/
theorem rowDictInsert_keys_nodup (d : List (ℤ × Row)) (k : ℤ) (v : Row)
    (h : (d.map Prod.fst).Nodup) : ((rowDictInsert d k v).map Prod.fst).Nodup := by
  rw [rowDictInsert_keys]
  by_cases hk : k ∈ d.map Prod.fst
  · simpa [hk]
  · simp [hk, List.nodup_append, h]

/-- Helper: the assigned entry is in the dict. -/
theorem rowDictInsert_self_mem (d : List (ℤ × Row)) (k : ℤ) (v : Row) :
    (k, v) ∈ rowDictInsert d k v := by
  induction d with
  | nil => simp [rowDictInsert]
  | cons q rest ih =>
      obtain ⟨k0, v0⟩ := q
      by_cases h : k0 = k
      · subst h; simp [rowDictInsert]
      · simp only [rowDictInsert, if_neg h]
        exact List.mem_cons_of_mem _ ih

/-- Helper: the assigned key is in the key list. -/
theorem rowDictInsert_key_self_mem (d : List (ℤ × Row)) (k : ℤ) (v : Row) :
    k ∈ (rowDictInsert d k v).map Prod.fst :=
  List.mem_map.mpr ⟨(k, v), rowDictInsert_self_mem d k v, rfl⟩

/-- Helper: a dict assignment never removes a key. -/
theorem rowDictInsert_keys_mono (d : List (ℤ × Row)) (k k' : ℤ) (v : Row)
    (h : k' ∈ d.map Prod.fst) : k' ∈ (rowDictInsert d k v).map Prod.fst := by
  rw [rowDictInsert_keys]
  by_cases hk : k ∈ d.map Prod.fst
  · simpa [hk] using h
  · simp only [hk, if_false]
    exact List.mem_append_left _ h

/-- Helper: every dict member is the assigned entry or an old entry. -/
theorem rowDictInsert_mem (d : List (ℤ × Row)) (k : ℤ) (v : Row) (p : ℤ × Row)
    (hp : p ∈ rowDictInsert d k v) : p = (k, v) ∨ p ∈ d := by
  induction d with
  | nil =>
      simp only [rowDictInsert, List.mem_singleton] at hp
      exact Or.inl hp
  | cons q rest ih =>
      obtain ⟨k0, v0⟩ := q
      by_cases h : k0 = k
      · subst h
        simp only [rowDictInsert, if_pos rfl] at hp
        rcases List.mem_cons.mp hp with h1 | h1
        · exact Or.inl h1
        · exact Or.inr (List.mem_cons_of_mem _ h1)
      · simp only [rowDictInsert, if_neg h] at hp
        rcases List.mem_cons.mp hp with h1 | h1
        · exact Or.inr (h1 ▸ List.mem_cons_self _ _)
        · rcases ih h1 with h2 | h2
          · exact Or.inl h2
          · exact Or.inr (List.mem_cons_of_mem _ h2)

/-- Helper: two entries of a dict with a duplicate-free key list that
share a key are the same entry. -/
theorem pair_eq_of_keys_nodup (d : List (ℤ × Row)) (h : (d.map Prod.fst).Nodup)
    (p q : ℤ × Row) (hp : p ∈ d) (hq : q ∈ d) (hk : p.1 = q.1) : p = q := by
  induction d with
  | nil => simp at hp
  | cons a rest ih =>
      have hnotin : a.1 ∉ rest.map Prod.fst := by
        simp only [List.map_cons, List.nodup_cons] at h
        exact h.1
      have hnd : (rest.map Prod.fst).Nodup := by
        simp only [List.map_cons, List.nodup_cons] at h
        exact h.2
      rcases List.mem_cons.mp hp with h1 | h1 <;> rcases List.mem_cons.mp hq with h2 | h2
      · rw [h1, h2]
      · exfalso
        exact hnotin (h1 ▸ hk ▸ List.mem_map.mpr ⟨q, h2, rfl⟩)
      · exfalso
        exact hnotin (h2 ▸ hk ▸ List.mem_map.mpr ⟨p, h1, rfl⟩)
      · exact ih hnd h1 h2

/-- Helper: the dict built by `list_to_dict` keeps key/sortkey coherence. -/
theorem list_to_dict_keyInv (items : List Row) :
    ∀ d : List (ℤ × Row), RowKeyInv d →
      RowKeyInv (items.foldl (fun d item => rowDictInsert d item.sortkey item) d) := by
  induction items with
  | nil => intro d hd; exact hd
  | cons it rest ih =>
      intro d hd
      exact ih _ (rowDictInsert_keyInv d it hd)

/-- Helper: the dict built by `list_to_dict` has a duplicate-free key
list. -/
theorem list_to_dict_keys_nodup (items : List Row) :
    ∀ d : List (ℤ × Row), (d.map Prod.fst).Nodup →
      ((items.foldl (fun d item => rowDictInsert d item.sortkey item) d).map
        Prod.fst).Nodup := by
  induction items with
  | nil => intro d hd; exact hd
  | cons it rest ih =>
      intro d hd
      exact ih _ (rowDictInsert_keys_nodup d it.sortkey it hd)

/-- Helper: the sortkey of every stored row is a key of the dict built by
`list_to_dict`. -/
theorem list_to_dict_key_mem (items : List Row) :
    ∀ (d : List (ℤ × Row)) (r : Row), (r ∈ items ∨ r.sortkey ∈ d.map Prod.fst) →
      r.sortkey ∈
        (items.foldl (fun d item => rowDictInsert d item.sortkey item) d).map
          Prod.fst := by
  induction items with
  | nil =>
      intro d r h
      rcases h with h | h
      · simp at h
      · exact h
  | cons it rest ih =>
      intro d r h
      apply ih
      rcases h with h | h
      · rcases List.mem_cons.mp h with h1 | h1
        · exact Or.inr (h1 ▸ rowDictInsert_key_self_mem d it.sortkey it)
        · exact Or.inl h1
      · exact Or.inr (rowDictInsert_keys_mono d it.sortkey r.sortkey it h)

/-- Helper: the sorted value list of a coherent dict with duplicate-free
keys is strictly sorted by sortkey. -/
theorem rowDict_values_sorted (d : List (ℤ × Row)) (hinv : RowKeyInv d)
    (hnd : (d.map Prod.fst).Nodup) :
    ((d.map Prod.snd).insertionSort (fun a b => a.sortkey ≤ b.sortkey)).Pairwise
      (fun a b => a.sortkey < b.sortkey) := by
  haveI htotal : IsTotal Row (fun a b => a.sortkey ≤ b.sortkey) :=
    ⟨fun a b => le_total a.sortkey b.sortkey⟩
  haveI htrans : IsTrans Row (fun a b => a.sortkey ≤ b.sortkey) :=
    ⟨fun a b c hab hbc => le_trans hab hbc⟩
  have hperm := List.perm_insertionSort (fun a b => a.sortkey ≤ b.sortkey) (d.map Prod.snd)
  have hsorted := List.sorted_insertionSort (fun a b => a.sortkey ≤ b.sortkey) (d.map Prod.snd)
  have hkeys : (d.map Prod.snd).map Row.sortkey = d.map Prod.fst := by
    rw [List.map_map]
    exact List.map_congr_left (fun p hp => hinv p hp)
  have hvalnd : ((d.map Prod.snd).map Row.sortkey).Nodup := hkeys ▸ hnd
  have hsortnd := ((hperm.map Row.sortkey).nodup_iff).mpr hvalnd
  have hpne := List.pairwise_map.mp hsortnd
  exact (hsorted.and hpne).imp (fun h => lt_of_le_of_ne h.1 h.2)

/-- C9: inserting a data row whose sortkey equals the sortkey of an
already-stored row replaces that row instead of appending a duplicate,
and after every insertion the per-measurement data list contains the new
row, contains at most one row per sortkey, keeps a row for every
previously stored sortkey, and is strictly sorted by sortkey (pairwise
distinct sortkeys in increasing order). -/
theorem C9_auto_insert_item (items : List Row) (data : Row) :
    data ∈ auto_insert_item items data ∧
    (∀ r ∈ auto_insert_item items data, r.sortkey = data.sortkey → r = data) ∧
    (auto_insert_item items data).Pairwise (fun a b => a.sortkey < b.sortkey) ∧
    (∀ r ∈ items, ∃ q ∈ auto_insert_item items data, q.sortkey = r.sortkey) := by
  have hinv0 : RowKeyInv (list_to_dict items) :=
    list_to_dict_keyInv items [] (by intro p hp; simp at hp)
  have hnd0 : ((list_to_dict items).map Prod.fst).Nodup :=
    list_to_dict_keys_nodup items [] (by simp)
  have hinv1 : RowKeyInv (rowDictInsert (list_to_dict items) data.sortkey data) :=
    rowDictInsert_keyInv (list_to_dict items) data hinv0
  have hnd1 :
      ((rowDictInsert (list_to_dict items) data.sortkey data).map Prod.fst).Nodup :=
    rowDictInsert_keys_nodup (list_to_dict items) data.sortkey data hnd0
  have hperm := List.perm_insertionSort (fun (a b : Row) => a.sortkey ≤ b.sortkey)
    ((rowDictInsert (list_to_dict items) data.sortkey data).map Prod.snd)
  refine ⟨?_, ?_, ?_, ?_⟩
  · refine hperm.mem_iff.mpr ?_
    exact List.mem_map.mpr
      ⟨(data.sortkey, data),
        rowDictInsert_self_mem (list_to_dict items) data.sortkey data, rfl⟩
  · intro r hr hkey
    have hr2 : r ∈ (rowDictInsert (list_to_dict items) data.sortkey data).map Prod.snd :=
      hperm.mem_iff.mp hr
    obtain ⟨p, hp, hpr⟩ := List.mem_map.mp hr2
    have hp1 : p.1 = data.sortkey := by
      rw [← hinv1 p hp, hpr, hkey]
    have := pair_eq_of_keys_nodup _ hnd1 p (data.sortkey, data) hp
      (rowDictInsert_self_mem (list_to_dict items) data.sortkey data) hp1
    rw [← hpr, this]
  · exact rowDict_values_sorted _ hinv1 hnd1
  · intro r hr
    have hk : r.sortkey ∈ (list_to_dict items).map Prod.fst :=
      list_to_dict_key_mem items [] r (Or.inl hr)
    have hk1 :
        r.sortkey ∈ (rowDictInsert (list_to_dict items) data.sortkey data).map
          Prod.fst :=
      rowDictInsert_keys_mono (list_to_dict items) data.sortkey r.sortkey data hk
    obtain ⟨p, hp, hpk⟩ := List.mem_map.mp hk1
    refine ⟨p.2, hperm.mem_iff.mpr (List.mem_map.mpr ⟨p, hp, rfl⟩), ?_⟩
    rw [hinv1 p hp, hpk]

/-! ## Theorems for C10 -/

/-- Helper: `extract_slice` succeeds with the half-open slice when both
endpoints occur and the start index is at most the end index. -/
theorem extract_slice_ok (names : List String) (a b : String) (si ei : ℕ)
    (ha : names.indexOf? a = some si) (hb : names.indexOf? b = some ei)
    (h : si ≤ ei) :
    extract_slice names a b = Except.ok ((names.drop si).take (ei + 1 - si)) := by
  simp [extract_slice, ha, hb, h]

/-- Helper: `extract_slice` raises when the start index lies after the
end index. -/
theorem extract_slice_error (names : List String) (a b : String) (si ei : ℕ)
    (ha : names.indexOf? a = some si) (hb : names.indexOf? b = some ei)
    (h : ei < si) :
    extract_slice names a b = Except.error "invalid pad slice" := by
  simp [extract_slice, ha, hb, Nat.not_le.mpr h]

/-- Helper: `setUpdate` has set-union membership and keeps the list
duplicate-free. -/
theorem setUpdate_spec (l : List String) :
    ∀ acc : List String,
      (∀ s, s ∈ setUpdate acc l ↔ s ∈ acc ∨ s ∈ l) ∧
      (acc.Nodup → (setUpdate acc l).Nodup) := by
  induction l with
  | nil =>
      intro acc
      exact ⟨fun s => by simp [setUpdate], fun h => h⟩
  | cons x rest ih =>
      intro acc
      have hstep : setUpdate acc (x :: rest) =
          setUpdate (if x ∈ acc then acc else acc ++ [x]) rest := rfl
      constructor
      · intro s
        rw [hstep, (ih _).1 s]
        by_cases hx : x ∈ acc
        · simp only [if_pos hx, List.mem_cons]
          constructor
          · rintro (hs | hs)
            · exact Or.inl hs
            · exact Or.inr (Or.inr hs)
          · rintro (hs | hs | hs)
            · exact Or.inl hs
            · exact Or.inl (hs ▸ hx)
            · exact Or.inr hs
        · simp only [if_neg hx, List.mem_append, List.mem_singleton, List.mem_cons]
          tauto
      · intro hnd
        rw [hstep]
        refine (ih _).2 ?_
        by_cases hx : x ∈ acc
        · simpa [hx]
        · simp [hx, List.nodup_append, hnd]

/-- Helper: when every range expands, the union loop returns the union of
the accumulator and all slices, duplicate-free. -/
theorem collectStrips_ok (names : List String) :
    ∀ (ranges : List (String × String)) (acc : List String),
      (∀ r ∈ ranges, ∃ l, extract_slice names r.1 r.2 = Except.ok l) →
      ∃ sel, collectStrips names ranges acc = Except.ok sel ∧
        (∀ s, s ∈ sel ↔ (s ∈ acc ∨ ∃ r ∈ ranges, ∃ l,
          extract_slice names r.1 r.2 = Except.ok l ∧ s ∈ l)) ∧
        (acc.Nodup → sel.Nodup) := by
  intro ranges
  induction ranges with
  | nil =>
      intro acc _
      exact ⟨acc, rfl, fun s => by simp, fun h => h⟩
  | cons r rest ih =>
      intro acc hall
      obtain ⟨l, hl⟩ := hall r (List.mem_cons_self _ _)
      obtain ⟨sel, hsel, hmem, hnd⟩ :=
        ih (setUpdate acc l) (fun q hq => hall q (List.mem_cons_of_mem _ hq))
      refine ⟨sel, ?_, ?_, ?_⟩
      · rw [collectStrips, hl]
        exact hsel
      · intro s
        rw [hmem s, (setUpdate_spec l acc).1 s]
        constructor
        · rintro ((hs | hs) | hs)
          · exact Or.inl hs
          · exact Or.inr ⟨r, List.mem_cons_self _ _, l, hl, hs⟩
          · obtain ⟨q, hq, l2, hl2, hsl2⟩ := hs
            exact Or.inr ⟨q, List.mem_cons_of_mem _ hq, l2, hl2, hsl2⟩
        · rintro (hs | ⟨q, hq, l2, hl2, hsl2⟩)
          · exact Or.inl (Or.inl hs)
          · rcases List.mem_cons.mp hq with h1 | h1
            · subst h1
              rw [hl] at hl2
              injection hl2 with hleq
              subst hleq
              exact Or.inl (Or.inr hsl2)
            · exact Or.inr ⟨q, h1, l2, hl2, hsl2⟩
      · intro h0
        exact hnd ((setUpdate_spec l acc).2 h0)

/-- Helper: when some range fails to expand, the union loop raises. -/
theorem collectStrips_error (names : List String) :
    ∀ (ranges : List (String × String)) (acc : List String),
      (∃ r ∈ ranges, ∃ e, extract_slice names r.1 r.2 = Except.error e) →
      ∃ e, collectStrips names ranges acc = Except.error e := by
  intro ranges
  induction ranges with
  | nil =>
      intro acc h
      obtain ⟨r, hr, -⟩ := h
      simp at hr
  | cons r rest ih =>
      intro acc h
      cases hE : extract_slice names r.1 r.2 with
      | error e =>
          refine ⟨e, ?_⟩
          rw [collectStrips, hE]
      | ok l =>
          obtain ⟨q, hq, e, he⟩ := h
          rcases List.mem_cons.mp hq with h1 | h1
          · rw [h1, hE] at he
            exact absurd he (by simp)
          · obtain ⟨e2, he2⟩ := ih (setUpdate acc l) ⟨q, h1, e, he⟩
            refine ⟨e2, ?_⟩
            rw [collectStrips, hE]
            exact he2

/-- C10: for every list of names and every list of `(start, end)` range
pairs whose endpoints all occur in the list with the start's first index
at most the end's, `parse_strips` returns each selected name exactly once
(no duplicates, membership exactly in a slice of some range), ordered by
the name's first position in the input names list, even when ranges
overlap or repeat names; and whenever some range has its start after its
end, it raises an error instead. -/
theorem C10_parse_strips (names : List String) (ranges : List (String × String)) :
    ((∀ r ∈ ranges, ∃ si ei : ℕ, names.indexOf? r.1 = some si ∧
        names.indexOf? r.2 = some ei ∧ si ≤ ei) →
      ∃ out, parse_strips names ranges = Except.ok out ∧
        out.Nodup ∧
        (∀ s, s ∈ out ↔ ∃ r ∈ ranges, ∃ l,
          extract_slice names r.1 r.2 = Except.ok l ∧ s ∈ l) ∧
        out.Pairwise (fun a b => names.indexOf a < names.indexOf b)) ∧
    ((∃ r ∈ ranges, ∃ si ei : ℕ, names.indexOf? r.1 = some si ∧
        names.indexOf? r.2 = some ei ∧ ei < si) →
      ∃ e, parse_strips names ranges = Except.error e) := by
  constructor
  · intro h
    have hok : ∀ r ∈ ranges, ∃ l, extract_slice names r.1 r.2 = Except.ok l := by
      intro r hr
      obtain ⟨si, ei, ha, hb, hle⟩ := h r hr
      exact ⟨_, extract_slice_ok names r.1 r.2 si ei ha hb hle⟩
    obtain ⟨sel, hsel, hmem, hndsel⟩ := collectStrips_ok names ranges [] hok
    have hselnd : sel.Nodup := hndsel List.nodup_nil
    have hperm := List.perm_insertionSort
      (fun a b => names.indexOf a ≤ names.indexOf b) sel
    have hsub : ∀ s ∈ sel, s ∈ names := by
      intro s hs
      rcases (hmem s).mp hs with h0 | ⟨r, hr, l, hl, hsl⟩
      · simp at h0
      · obtain ⟨si, ei, ha, hb, hle⟩ := h r hr
        rw [extract_slice_ok names r.1 r.2 si ei ha hb hle] at hl
        injection hl with hleq
        subst hleq
        exact List.mem_of_mem_drop (List.mem_of_mem_take hsl)
    refine ⟨sel.insertionSort (fun a b => names.indexOf a ≤ names.indexOf b),
      ?_, ?_, ?_, ?_⟩
    · rw [parse_strips, hsel]
    · exact (hperm.nodup_iff).mpr hselnd
    · intro s
      rw [hperm.mem_iff, hmem s]
      simp
    · haveI : IsTotal String (fun a b => names.indexOf a ≤ names.indexOf b) :=
        ⟨fun a b => le_total _ _⟩
      haveI : IsTrans String (fun a b => names.indexOf a ≤ names.indexOf b) :=
        ⟨fun a b c hab hbc => le_trans hab hbc⟩
      have hsorted := List.sorted_insertionSort
        (fun a b => names.indexOf a ≤ names.indexOf b) sel
      have hnd : (sel.insertionSort
          (fun a b => names.indexOf a ≤ names.indexOf b)).Pairwise (· ≠ ·) :=
        (hperm.nodup_iff).mpr hselnd
      refine (hsorted.and hnd).imp_of_mem ?_
      intro a b hamem hbmem hab
      have ha : a ∈ names := hsub a (hperm.mem_iff.mp hamem)
      have hb : b ∈ names := hsub b (hperm.mem_iff.mp hbmem)
      exact lt_of_le_of_ne hab.1
        (fun heq => hab.2 ((List.indexOf_inj ha hb).mp heq))
  · rintro ⟨r, hr, si, ei, ha, hb, hlt⟩
    obtain ⟨e, he⟩ := collectStrips_error names ranges []
      ⟨r, hr, _, extract_slice_error names r.1 r.2 si ei ha hb hlt⟩
    refine ⟨e, ?_⟩
    rw [parse_strips, he]

/-- C10 witness: over names `a, b, c, d`, the overlapping ranges
`b-d, a-b` expand without error to a duplicate-free selection whose
characterization and ordering the theorem gives. -/
theorem C10_parse_strips_witness :
    (∀ r ∈ ([("b", "d"), ("a", "b")] : List (String × String)), ∃ si ei : ℕ,
        (["a", "b", "c", "d"] : List String).indexOf? r.1 = some si ∧
        (["a", "b", "c", "d"] : List String).indexOf? r.2 = some ei ∧ si ≤ ei) ∧
    (∃ out, parse_strips ["a", "b", "c", "d"] [("b", "d"), ("a", "b")] =
        Except.ok out ∧
      out.Nodup ∧
      (∀ s, s ∈ out ↔ ∃ r ∈ ([("b", "d"), ("a", "b")] : List (String × String)),
        ∃ l, extract_slice ["a", "b", "c", "d"] r.1 r.2 = Except.ok l ∧ s ∈ l) ∧
      out.Pairwise (fun a b =>
        (["a", "b", "c", "d"] : List String).indexOf a <
          (["a", "b", "c", "d"] : List String).indexOf b)) :=
  have hyp : ∀ r ∈ ([("b", "d"), ("a", "b")] : List (String × String)), ∃ si ei : ℕ,
      (["a", "b", "c", "d"] : List String).indexOf? r.1 = some si ∧
      (["a", "b", "c", "d"] : List String).indexOf? r.2 = some ei ∧ si ≤ ei := by
    intro r hr
    fin_cases hr
    · exact ⟨1, 3, rfl, rfl, by norm_num⟩
    · exact ⟨0, 1, rfl, rfl, by norm_num⟩
  ⟨hyp, (C10_parse_strips ["a", "b", "c", "d"] [("b", "d"), ("a", "b")]).1 hyp⟩
